import Mathlib

/-!
Shallow embedding of the `windows-kits` crate (`src/lib.rs`).

The crate resolves the installed Windows SDK directory: `WindowsKits::new`
reads the installation root from the registry, `get_dir` maps a
`DirectoryType` to the category base directory, and `get_version_dir`
enumerates that directory and picks the highest version directory by
`Iterator::max` over `PathBuf`s.

Modelling choices:
* A `PathBuf` is a list of components (`Path := List Comp`).  A component is
  either text (an `OsStr` whose `to_str` succeeds) or an undecodable name
  (`to_str` fails); the undecodable constructor carries a tag so distinct
  undecodable names stay distinct.  `Comp.ltB`/`pathLtB` embed Rust's
  component-wise `Ord` on `Path`; comparisons involving undecodable
  components are never reached by the embedded pipeline, because the filter
  in `get_version_dir` drops every path whose final component is not text
  before `max` runs, and all candidate paths share the same (text) base.
* The filesystem collaborator (`std::fs::read_dir`) is a function from a
  path to either a whole-enumeration error or a list of per-entry results,
  mirroring `read_dir()?` followed by iteration over `Result<DirEntry, _>`.
* The registry collaborator (`winreg`) is a function from a key path to a
  key, whose values are read by name; a string-typed read of a non-string
  value fails with an invalid-type I/O error, as `winreg`'s
  `get_value::<String>` does.
-/

namespace WinKits

/-- An I/O error (`std::io::Error`): either an OS error with a code, or the
invalid-type error `winreg` produces on a value type mismatch. -/
inductive IoError where
  | os (code : Nat)
  | invalidType
deriving DecidableEq, Repr

/-- The crate's error enum (`enum Error`): `IoError` wrapping the underlying
I/O failure, or `DirectoryNotFound`. -/
inductive Error where
  | IoError (e : IoError)
  | DirectoryNotFound
deriving DecidableEq, Repr

/-- `enum DirectoryType { Binaries, Headers, Libraries }`. -/
inductive DirectoryType where
  | Binaries
  | Headers
  | Libraries
deriving DecidableEq, Repr

/-- One path component (an `OsStr`): either a name that decodes as text
(`to_str` returns `some`), or an undecodable name (`to_str` returns `none`),
tagged so that distinct undecodable names are distinct values. -/
inductive Comp where
  | text (s : String)
  | undecodable (tag : Nat)
deriving DecidableEq, Repr

/-- `OsStr::to_str`. -/
def Comp.toStr : Comp → Option String
  | .text s => some s
  | .undecodable _ => none

instance {ε α : Type} [DecidableEq ε] [DecidableEq α] :
    DecidableEq (Except ε α) := fun x y =>
  match x, y with
  | .ok a, .ok b =>
    if h : a = b then isTrue (h ▸ rfl) else
      isFalse (fun hc => h (Except.ok.inj hc))
  | .error a, .error b =>
    if h : a = b then isTrue (h ▸ rfl) else
      isFalse (fun hc => h (Except.error.inj hc))
  | .ok _, .error _ => isFalse (fun hc => Except.noConfusion hc)
  | .error _, .ok _ => isFalse (fun hc => Except.noConfusion hc)

/-- A `PathBuf`, as its list of components. -/
abbrev Path := List Comp

/-- Strict comparison of two components, by their byte representation;
for text components, byte-wise UTF-8 order coincides with `String`'s
code-point order.  Comparisons involving an undecodable component are
unreachable in the embedded pipeline (see module comment), so they are
mapped to `false`. -/
def Comp.ltB : Comp → Comp → Bool
  | .text s, .text t => decide (s.data < t.data)
  | _, _ => false

/-- Rust's `Ord` on `Path`: lexicographic comparison of the component
lists, a strictly shorter prefix comparing less. -/
def pathLtB : Path → Path → Bool
  | [], [] => false
  | [], _ :: _ => true
  | _ :: _, [] => false
  | a :: as, b :: bs => Comp.ltB a b || (a == b && pathLtB as bs)

/-- One step of `Iterator::max`: keep the accumulator only when the new
element is strictly smaller, so the last of equally-maximal elements wins. -/
def maxStep (m y : Path) : Path := if pathLtB y m then m else y

/-- `Iterator::max` over a list of paths. -/
def rustMax : List Path → Option Path
  | [] => none
  | x :: xs => some (xs.foldl maxStep x)

/-- A directory entry (`std::fs::DirEntry`): the only observable used by the
crate is its file name, via `DirEntry::path`. -/
structure DirEntry where
  name : Comp
deriving DecidableEq, Repr

/-- `DirEntry::path`: the directory's path extended by the entry's name. -/
def DirEntry.path (base : Path) (e : DirEntry) : Path := base ++ [e.name]

/-- The filesystem enumeration collaborator: `read_dir` either fails as a
whole or yields a list of per-entry results, each of which may itself be an
error. -/
abbrev FileSystem := Path → Except IoError (List (Except IoError DirEntry))

/-- A registry value: a string-typed value or a value of some other type. -/
inductive RegValue where
  | str (s : String)
  | nonString (tag : Nat)
deriving DecidableEq, Repr

/-- An opened registry key: its values, read by name. -/
structure RegKeyModel where
  values : String → Except IoError RegValue

/-- The local-machine registry hive: keys opened by path. -/
structure Registry where
  openSubkey : String → Except IoError RegKeyModel

/-- `RegKey::get_value::<String>`: propagates the read failure, succeeds on a
string-typed value, and fails with the invalid-type error otherwise. -/
def RegKeyModel.getValueString (key : RegKeyModel) (name : String) :
    Except IoError String :=
  match key.values name with
  | .error e => .error e
  | .ok (.str s) => .ok s
  | .ok (.nonString _) => .error .invalidType

/-- The registry key path queried by `WindowsKits::new`. -/
def installedRootsKeyPath : String :=
  "SOFTWARE\\Microsoft\\Windows Kits\\Installed Roots"

/-- Split a character sequence at a separator character; `acc` holds the
(reversed) characters of the current piece. -/
def splitCharsAux (sep : Char) : List Char → List Char → List String
  | [], acc => [⟨acc.reverse⟩]
  | c :: cs, acc =>
    if c = sep then ⟨acc.reverse⟩ :: splitCharsAux sep cs []
    else splitCharsAux sep cs (c :: acc)

/-- `String::into::<PathBuf>()` for the registry value: the parsed component
structure of the root never matters to the crate (paths are only extended
and compared whole), so the conversion is modelled as splitting on the
Windows separator. -/
def stringToPath (s : String) : Path :=
  (splitCharsAux '\\' s.data []).map Comp.text

/-- `struct WindowsKits { path: PathBuf }`. -/
structure WindowsKits where
  path : Path
deriving DecidableEq, Repr

/-- `WindowsKits::new`, with the registry as an explicit collaborator. -/
def WindowsKits.new (reg : Registry) : Except Error WindowsKits :=
  match reg.openSubkey installedRootsKeyPath with
  | .error e => .error (.IoError e)
  | .ok key =>
    match key.getValueString "KitsRoot10" with
    | .error e => .error (.IoError e)
    | .ok dir => .ok ⟨stringToPath dir⟩

/-- `WindowsKits::path`: returns (a clone of) the stored path. -/
def WindowsKits.pathMethod (k : WindowsKits) : Path := k.path

/-- `WindowsKits::get_dir`: the stored path joined with the category's
fixed subdirectory literal. -/
def WindowsKits.get_dir (k : WindowsKits) (t : DirectoryType) : Path :=
  k.pathMethod ++ [Comp.text (match t with
    | .Binaries => "bin"
    | .Headers => "Include"
    | .Libraries => "Lib")]

/-- `str::starts_with("10.")` on a decoded name: a prefix test on the
character sequence (for valid UTF-8 this coincides with the byte-level
test Rust performs). -/
def startsWithTen (s : String) : Bool := "10.".data.isPrefixOf s.data

/-- The filter in `get_version_dir`: the path's last component, if its name
decodes as text, starts with `"10."`. -/
def isVersionCandidate (p : Path) : Bool :=
  ((p.getLast?.bind Comp.toStr).map (fun c => startsWithTen c)).getD false

/-- The candidate list built inside `get_version_dir`:
`dir.filter_map(|d| d.ok()).map(|d| d.path()).filter(...)`. -/
def retainedOf (base : Path) (entries : List (Except IoError DirEntry)) :
    List Path :=
  ((entries.filterMap Except.toOption).map (DirEntry.path base)).filter
    isVersionCandidate

/-- `WindowsKits::get_version_dir`, with the filesystem as an explicit
collaborator: enumerate the category directory, keep readable entries whose
text name starts with `"10."`, and take the maximal path. -/
def WindowsKits.get_version_dir (fs : FileSystem) (k : WindowsKits)
    (t : DirectoryType) : Except Error Path :=
  match fs (k.get_dir t) with
  | .error e => .error (.IoError e)
  | .ok entries =>
    match rustMax (retainedOf (k.get_dir t) entries) with
    | none => .error .DirectoryNotFound
    | some p => .ok p

/-- A sample installation root used by the concrete listings below. -/
def sampleKits : WindowsKits :=
  ⟨[Comp.text "C:", Comp.text "Program Files (x86)", Comp.text "Windows Kits",
    Comp.text "10"]⟩

/-- The Headers base directory of `sampleKits`. -/
def headersBase : Path := sampleKits.get_dir .Headers

/-- A listing with two version directories, a `9.0` entry and a stray
file-like entry. -/
def listingMixed : List (Except IoError DirEntry) :=
  [.ok ⟨.text "10.0.10240.0"⟩, .ok ⟨.text "10.0.19041.0"⟩, .ok ⟨.text "9.0"⟩,
   .ok ⟨.text "notes.txt"⟩]

/-- A filesystem exposing `listingMixed` under the Headers base
directory. -/
def fsMixed : FileSystem := fun p =>
  if p = headersBase then .ok listingMixed else .error (.os 2)

/-- The Binaries base directory of `sampleKits`. -/
def binariesBase : Path := sampleKits.get_dir .Binaries

/-- A listing containing the entries `10.9` and `10.10`. -/
def listingNine : List (Except IoError DirEntry) :=
  [.ok ⟨.text "10.9"⟩, .ok ⟨.text "10.10"⟩]

/-- A filesystem exposing `listingNine` under the Binaries base
directory. -/
def fsNine : FileSystem := fun p =>
  if p = binariesBase then .ok listingNine else .error (.os 2)

/-- One public call on the resolver. -/
inductive ApiCall where
  | queryPath
  | queryDir (t : DirectoryType)
  | queryVersionDir (t : DirectoryType)
deriving DecidableEq, Repr

/-- The result of one public call. -/
inductive ApiResult where
  | pathR (p : Path)
  | dirR (p : Path)
  | verR (r : Except Error Path)
deriving DecidableEq, Repr

/-- One call against the resolver.  Every public method of `WindowsKits`
takes `&self`, and `WindowsKits` has no interior mutability, so a call
returns its result and leaves the resolver value unchanged. -/
def WindowsKits.call (fs : FileSystem) (k : WindowsKits) :
    ApiCall → ApiResult × WindowsKits
  | .queryPath => (.pathR k.pathMethod, k)
  | .queryDir t => (.dirR (k.get_dir t), k)
  | .queryVersionDir t => (.verR (k.get_version_dir fs t), k)

/-- A sequence of public calls, threading the resolver value. -/
def runCalls (fs : FileSystem) (k : WindowsKits) :
    List ApiCall → List ApiResult × WindowsKits
  | [] => ([], k)
  | c :: cs =>
    ((k.call fs c).1 :: (runCalls fs (k.call fs c).2 cs).1,
      (runCalls fs (k.call fs c).2 cs).2)

/-- A concrete registry holding a sample root under `KitsRoot10`. -/
def regSample : Registry :=
  ⟨fun key =>
    if key = installedRootsKeyPath then
      .ok ⟨fun name =>
        if name = "KitsRoot10" then .ok (.str "C:\\Kits\\10")
        else .error (.os 2)⟩
    else .error (.os 2)⟩

/-- The resolver `regSample` constructs. -/
def kitsSample : WindowsKits := ⟨stringToPath "C:\\Kits\\10"⟩

end WinKits

namespace WinKits

/-! ### Basic facts about the path order and `rustMax` -/

/-- `Comp.ltB` on two text components is the strict `String` order. -/
theorem Comp.ltB_text_iff (s t : String) :
    Comp.ltB (.text s) (.text t) = true ↔ s < t := by
  show decide (s.data < t.data) = true ↔ s < t
  rw [decide_eq_true_iff]
  exact String.lt_iff_toList_lt.symm

/-- No component compares strictly below itself. -/
theorem Comp.ltB_self (c : Comp) : Comp.ltB c c = false := by
  cases c with
  | text s =>
    show decide (s.data < s.data) = false
    exact decide_eq_false (lt_irrefl s.data)
  | undecodable tag => rfl

/-- `Comp.ltB` on two text components decides the strict `String` order. -/
theorem Comp.ltB_text (a b : String) :
    Comp.ltB (.text a) (.text b) = decide (a < b) := by
  show decide (a.data < b.data) = decide (a < b)
  by_cases h : a < b
  · have hd : a.data < b.data := String.lt_iff_toList_lt.mp h
    rw [decide_eq_true h, decide_eq_true hd]
  · have hd : ¬ a.data < b.data := fun hd => h (String.lt_iff_toList_lt.mpr hd)
    rw [decide_eq_false h, decide_eq_false hd]

/-- Extending a common base by single text components compares exactly as
the component names compare as strings. -/
theorem pathLtB_append_text (base : Path) (a b : String) :
    pathLtB (base ++ [Comp.text a]) (base ++ [Comp.text b]) =
      decide (a < b) := by
  induction base with
  | nil =>
    show (Comp.ltB (.text a) (.text b) ||
      (Comp.text a == Comp.text b && pathLtB [] [])) = decide (a < b)
    rw [Comp.ltB_text, show pathLtB [] [] = false from rfl, Bool.and_false,
      Bool.or_false]
  | cons c base ih =>
    show (Comp.ltB c c || (c == c && pathLtB (base ++ [Comp.text a])
        (base ++ [Comp.text b]))) = decide (a < b)
    rw [Comp.ltB_self, ih]
    simp

/-- The result of folding `maxStep` is the start value or a list element. -/
theorem foldl_maxStep_mem (l : List Path) (x : Path) :
    l.foldl maxStep x = x ∨ l.foldl maxStep x ∈ l := by
  induction l generalizing x with
  | nil => exact Or.inl rfl
  | cons y l ih =>
    rw [List.foldl_cons]
    rcases ih (maxStep x y) with h | h
    · rw [h]
      unfold maxStep
      by_cases hc : pathLtB y x = true
      · rw [if_pos hc]
        exact Or.inl rfl
      · rw [if_neg hc]
        exact Or.inr (List.mem_cons_self y l)
    · exact Or.inr (List.mem_cons_of_mem y h)

/-- `rustMax` returns an element of its input list. -/
theorem rustMax_mem {l : List Path} {p : Path} (h : rustMax l = some p) :
    p ∈ l := by
  cases l with
  | nil => exact absurd h (by simp [rustMax])
  | cons x xs =>
    have hp : xs.foldl maxStep x = p := by
      simpa [rustMax] using h
    rcases foldl_maxStep_mem xs x with h' | h'
    · rw [hp] at h'; rw [h']; exact List.mem_cons_self x xs
    · rw [hp] at h'; exact List.mem_cons_of_mem x h'

/-- `rustMax` returns `none` exactly on the empty list. -/
theorem rustMax_eq_none_iff (l : List Path) : rustMax l = none ↔ l = [] := by
  cases l <;> simp [rustMax]

/-- `Result::ok` (as `Except.toOption`) yields `some` exactly on `Ok`. -/
theorem exceptToOption_eq_some {ε α : Type} (x : Except ε α) (a : α) :
    x.toOption = some a ↔ x = .ok a := by
  cases x <;> simp [Except.toOption]

/-- The version filter applied to an entry's path inspects only the entry's
name. -/
theorem isVersionCandidate_path (base : Path) (e : DirEntry) :
    isVersionCandidate (DirEntry.path base e) =
      ((Comp.toStr e.name).map (fun c => startsWithTen c)).getD false := by
  unfold isVersionCandidate DirEntry.path
  rw [List.getLast?_concat]
  rfl

/-- The version filter holds for an entry's path exactly when the entry's
name decodes as text starting with `"10."`. -/
theorem isVersionCandidate_path_iff (base : Path) (e : DirEntry) :
    isVersionCandidate (DirEntry.path base e) = true ↔
      ∃ s, Comp.toStr e.name = some s ∧ startsWithTen s = true := by
  rw [isVersionCandidate_path]
  cases h : Comp.toStr e.name with
  | none => simp
  | some s => simp

/-- Membership in the candidate list built by `get_version_dir`. -/
theorem mem_retainedOf (base : Path) (entries : List (Except IoError DirEntry))
    (p : Path) :
    p ∈ retainedOf base entries ↔
      ∃ e : DirEntry, Except.ok e ∈ entries ∧ p = DirEntry.path base e ∧
        ∃ s, Comp.toStr e.name = some s ∧ startsWithTen s = true := by
  unfold retainedOf
  rw [List.mem_filter]
  constructor
  · rintro ⟨hmem, hcand⟩
    rw [List.mem_map] at hmem
    obtain ⟨e, he, hpe⟩ := hmem
    rw [List.mem_filterMap] at he
    obtain ⟨x, hx, hxe⟩ := he
    rw [exceptToOption_eq_some] at hxe
    subst hxe
    exact ⟨e, hx, hpe.symm,
      (isVersionCandidate_path_iff base e).mp (hpe ▸ hcand)⟩
  · rintro ⟨e, he, hpe, hs⟩
    subst hpe
    refine ⟨?_, (isVersionCandidate_path_iff base e).mpr hs⟩
    rw [List.mem_map]
    exact ⟨e, List.mem_filterMap.mpr ⟨.ok e, he, rfl⟩, rfl⟩

/-- Every retained path is the base extended by a single text component
whose name starts with `"10."`. -/
theorem retainedOf_shape {base : Path}
    {entries : List (Except IoError DirEntry)} {p : Path}
    (h : p ∈ retainedOf base entries) :
    ∃ s, p = base ++ [Comp.text s] ∧ startsWithTen s = true := by
  obtain ⟨e, _, hpe, s, hs, h10⟩ := (mem_retainedOf base entries p).mp h
  refine ⟨s, ?_, h10⟩
  cases hn : e.name with
  | text t =>
    rw [hn] at hs
    cases hs
    simp [hpe, DirEntry.path, hn]
  | undecodable tag =>
    rw [hn] at hs
    exact absurd hs (by simp [Comp.toStr])

/-- Folding `maxStep` over same-base single-text-component paths yields a
path of the same shape whose name is an upper bound of all names seen. -/
theorem foldl_maxStep_spec (base : Path) (l : List Path) (x : Path)
    (a : String) (hx : x = base ++ [Comp.text a])
    (hl : ∀ q ∈ l, ∃ s, q = base ++ [Comp.text s]) :
    ∃ c, l.foldl maxStep x = base ++ [Comp.text c] ∧ a ≤ c ∧
      ∀ q ∈ l, pathLtB (l.foldl maxStep x) q = false := by
  induction l generalizing x a with
  | nil =>
    exact ⟨a, hx, le_refl a, fun q hq => absurd hq (List.not_mem_nil q)⟩
  | cons y l ih =>
    obtain ⟨b, hy⟩ := hl y (List.mem_cons_self y l)
    have hyx : pathLtB y x = decide (b < a) := by
      rw [hx, hy, pathLtB_append_text]
    rw [List.foldl_cons]
    by_cases hba : b < a
    · have hx' : maxStep x y = x := by
        unfold maxStep
        rw [hyx]
        simp [hba]
      rw [hx']
      obtain ⟨c, hm, hac, hrest⟩ :=
        ih x a hx (fun q hq => hl q (List.mem_cons_of_mem y hq))
      refine ⟨c, hm, hac, ?_⟩
      intro q hq
      rcases List.mem_cons.mp hq with rfl | hq'
      · rw [hm, hy, pathLtB_append_text]
        exact decide_eq_false
          (fun hcb => absurd (lt_trans hcb hba) (not_lt.mpr hac))
      · exact hrest q hq'
    · have hab : a ≤ b := le_of_not_lt hba
      have hx' : maxStep x y = y := by
        unfold maxStep
        rw [hyx]
        simp [hba]
      rw [hx']
      obtain ⟨c, hm, hbc, hrest⟩ :=
        ih y b hy (fun q hq => hl q (List.mem_cons_of_mem y hq))
      refine ⟨c, hm, le_trans hab hbc, ?_⟩
      intro q hq
      rcases List.mem_cons.mp hq with rfl | hq'
      · rw [hm, hy, pathLtB_append_text]
        exact decide_eq_false (not_lt.mpr hbc)
      · exact hrest q hq'

/-- On a successful enumeration, `get_version_dir` reduces to the maximum of
the candidate list. -/
theorem get_version_dir_ok_case (fs : FileSystem) (k : WindowsKits)
    (t : DirectoryType) (entries : List (Except IoError DirEntry))
    (hfs : fs (k.get_dir t) = .ok entries) :
    k.get_version_dir fs t =
      match rustMax (retainedOf (k.get_dir t) entries) with
      | none => .error .DirectoryNotFound
      | some p => .ok p := by
  unfold WindowsKits.get_version_dir
  rw [hfs]

/-! ### Claims -/

/-- C1: among the retained entries of the category base directory,
`get_version_dir` returns a path that the filter retained and that no
retained path exceeds in the lexicographic (ordinal, component/byte-wise)
path order — i.e. the lexicographic maximum, not a semantic-version
maximum. -/
theorem get_version_dir_selects_lex_max (fs : FileSystem) (k : WindowsKits)
    (t : DirectoryType) (entries : List (Except IoError DirEntry)) (p : Path)
    (hfs : fs (k.get_dir t) = .ok entries)
    (h : k.get_version_dir fs t = .ok p) :
    p ∈ retainedOf (k.get_dir t) entries ∧
      ∀ q ∈ retainedOf (k.get_dir t) entries, pathLtB p q = false := by
  rw [get_version_dir_ok_case fs k t entries hfs] at h
  cases hR : rustMax (retainedOf (k.get_dir t) entries) with
  | none =>
    rw [hR] at h
    simp at h
  | some q =>
    rw [hR] at h
    simp at h
    subst h
    refine ⟨rustMax_mem hR, ?_⟩
    cases hret : retainedOf (k.get_dir t) entries with
    | nil =>
      rw [hret] at hR
      simp [rustMax] at hR
    | cons r rs =>
      rw [hret] at hR
      have hfold : rs.foldl maxStep r = q := by
        simpa [rustMax] using hR
      obtain ⟨aR, hr, _⟩ := retainedOf_shape (p := r)
        (by rw [hret]; exact List.mem_cons_self r rs)
      have hl : ∀ w ∈ rs, ∃ s, w = (k.get_dir t) ++ [Comp.text s] := by
        intro w hw
        obtain ⟨s, hws, _⟩ := retainedOf_shape (p := w)
          (by rw [hret]; exact List.mem_cons_of_mem r hw)
        exact ⟨s, hws⟩
      obtain ⟨c, hm, hac, hrest⟩ :=
        foldl_maxStep_spec (k.get_dir t) rs r aR hr hl
      rw [hfold] at hm hrest
      intro w hw
      rcases List.mem_cons.mp hw with rfl | hw'
      · rw [hm, hr, pathLtB_append_text]
        exact decide_eq_false (not_lt.mpr hac)
      · exact hrest w hw'

/-- C1 witness. -/
theorem get_version_dir_selects_lex_max_witness :
    (([Comp.text "r"] ++ [Comp.text "Include"] ++ [Comp.text "10.1"])
        ∈ retainedOf ((⟨[Comp.text "r"]⟩ : WindowsKits).get_dir .Headers)
          [Except.ok ⟨Comp.text "10.1"⟩]) ∧
      ∀ q ∈ retainedOf ((⟨[Comp.text "r"]⟩ : WindowsKits).get_dir .Headers)
          [Except.ok ⟨Comp.text "10.1"⟩],
        pathLtB ([Comp.text "r"] ++ [Comp.text "Include"] ++
          [Comp.text "10.1"]) q = false :=
  get_version_dir_selects_lex_max
    (fun p => if p = (⟨[Comp.text "r"]⟩ : WindowsKits).get_dir .Headers
      then .ok [Except.ok ⟨Comp.text "10.1"⟩] else .error (.os 2))
    ⟨[Comp.text "r"]⟩ .Headers [Except.ok ⟨Comp.text "10.1"⟩]
    ([Comp.text "r"] ++ [Comp.text "Include"] ++ [Comp.text "10.1"])
    (by decide) (by decide)

/-- C2: a path is retained by `get_version_dir`'s filter exactly when it is
the path of an entry that was read successfully and whose name decodes as
text beginning with `"10."`; a per-entry read failure contributes nothing
(it is silently skipped, not surfaced). -/
theorem retained_iff_readable_decodable_ten (base : Path)
    (entries : List (Except IoError DirEntry)) (p : Path) (err : IoError) :
    (p ∈ retainedOf base entries ↔
      ∃ e : DirEntry, Except.ok e ∈ entries ∧ p = DirEntry.path base e ∧
        ∃ s, Comp.toStr e.name = some s ∧ startsWithTen s = true) ∧
    retainedOf base (Except.error err :: entries) =
      retainedOf base entries := by
  refine ⟨mem_retainedOf base entries p, ?_⟩
  unfold retainedOf
  simp [Except.toOption]

/-- C3: `get_version_dir` fails with `IoError` exactly when enumerating the
category base directory fails, fails with `DirectoryNotFound` exactly when
enumeration succeeds but no entry passes the `"10."` filter, and returns a
path in every other case. -/
theorem get_version_dir_error_classification (fs : FileSystem)
    (k : WindowsKits) (t : DirectoryType) :
    (∀ e, k.get_version_dir fs t = .error (Error.IoError e) ↔
        fs (k.get_dir t) = .error e) ∧
    (k.get_version_dir fs t = .error Error.DirectoryNotFound ↔
        ∃ entries, fs (k.get_dir t) = .ok entries ∧
          retainedOf (k.get_dir t) entries = []) ∧
    (∀ entries, fs (k.get_dir t) = .ok entries →
        retainedOf (k.get_dir t) entries ≠ [] →
        ∃ p, k.get_version_dir fs t = .ok p) := by
  cases hfs : fs (k.get_dir t) with
  | error e0 =>
    have hgvd : k.get_version_dir fs t = .error (.IoError e0) := by
      unfold WindowsKits.get_version_dir
      rw [hfs]
    refine ⟨fun e => ?_, ?_, fun entries he => ?_⟩
    · rw [hgvd]
      simp
    · rw [hgvd]
      simp
    · exact absurd he (by simp)
  | ok entries0 =>
    cases hR : rustMax (retainedOf (k.get_dir t) entries0) with
    | none =>
      have hempty := (rustMax_eq_none_iff _).mp hR
      have hgvd : k.get_version_dir fs t = .error .DirectoryNotFound := by
        rw [get_version_dir_ok_case fs k t entries0 hfs, hR]
      refine ⟨fun e => ?_, ?_, fun entries he hne => ?_⟩
      · rw [hgvd]
        simp
      · rw [hgvd]
        constructor
        · intro _
          exact ⟨entries0, rfl, hempty⟩
        · intro _
          rfl
      · have heq : entries = entries0 := by
          injection he with h'
          exact h'.symm
        subst heq
        exact absurd hempty hne
    | some p0 =>
      have hgvd : k.get_version_dir fs t = .ok p0 := by
        rw [get_version_dir_ok_case fs k t entries0 hfs, hR]
      refine ⟨fun e => ?_, ?_, fun entries he hne => ⟨p0, hgvd⟩⟩
      · rw [hgvd]
        simp
      · rw [hgvd]
        constructor
        · intro h
          exact absurd h (by simp)
        · rintro ⟨entries, he, hempty⟩
          have heq : entries = entries0 := by
            injection he with h'
            exact h'.symm
          subst heq
          rw [hempty] at hR
          simp [rustMax] at hR

/-- C4: `get_dir` is a pure total function of the stored root and the
category: it joins the root with the literal `bin`, `Include` or `Lib`
respectively, and equal inputs give equal paths. -/
theorem get_dir_total_pure (k : WindowsKits) :
    k.get_dir .Binaries = k.path ++ [Comp.text "bin"] ∧
    k.get_dir .Headers = k.path ++ [Comp.text "Include"] ∧
    k.get_dir .Libraries = k.path ++ [Comp.text "Lib"] ∧
    ∀ t : DirectoryType, k.get_dir t = k.get_dir t :=
  ⟨rfl, rfl, rfl, fun _ => rfl⟩

/-- C10: a successful `get_version_dir` result is the category base
directory extended by exactly one component, a text name beginning with
`"10."` — an immediate child, never the base itself or a deeper
descendant. -/
theorem get_version_dir_immediate_child (fs : FileSystem) (k : WindowsKits)
    (t : DirectoryType) (p : Path) (h : k.get_version_dir fs t = .ok p) :
    ∃ s : String, p = k.get_dir t ++ [Comp.text s] ∧
      startsWithTen s = true := by
  cases hfs : fs (k.get_dir t) with
  | error e =>
    have hgvd : k.get_version_dir fs t = .error (.IoError e) := by
      unfold WindowsKits.get_version_dir
      rw [hfs]
    rw [hgvd] at h
    exact absurd h (by simp)
  | ok entries =>
    rw [get_version_dir_ok_case fs k t entries hfs] at h
    cases hR : rustMax (retainedOf (k.get_dir t) entries) with
    | none =>
      rw [hR] at h
      exact absurd h (by simp)
    | some q =>
      rw [hR] at h
      simp at h
      subst h
      exact retainedOf_shape (rustMax_mem hR)


/-- C5: on entries `10.0.10240.0`, `10.0.19041.0`, `9.0`, `notes.txt` the
candidate set keeps exactly the two `10.`-entries — excluding `9.0` and
`notes.txt` — and `get_version_dir` returns the path ending in
`10.0.19041.0`. -/
theorem get_version_dir_mixed_listing :
    retainedOf headersBase listingMixed =
      [headersBase ++ [Comp.text "10.0.10240.0"],
       headersBase ++ [Comp.text "10.0.19041.0"]] ∧
    sampleKits.get_version_dir fsMixed .Headers =
      .ok (headersBase ++ [Comp.text "10.0.19041.0"]) := by
  decide


/-- C6: both `10.9` and `10.10` are in the candidate set, and the selected
(lexicographically maximal) entry is `10.9`, not the semantically larger
`10.10`. -/
theorem get_version_dir_ten_nine_wins :
    retainedOf binariesBase listingNine =
      [binariesBase ++ [Comp.text "10.9"],
       binariesBase ++ [Comp.text "10.10"]] ∧
    sampleKits.get_version_dir fsNine .Binaries =
      .ok (binariesBase ++ [Comp.text "10.9"]) := by
  decide

/-- C7: `get_version_dir` is a function of the filesystem snapshot alone
(given the resolver and category): two calls against equal snapshots return
the same result. -/
theorem get_version_dir_idempotent (fs₁ fs₂ : FileSystem) (k : WindowsKits)
    (t : DirectoryType) (h : fs₁ = fs₂) :
    k.get_version_dir fs₁ t = k.get_version_dir fs₂ t := by
  rw [h]

/-- C7 witness. -/
theorem get_version_dir_idempotent_witness :
    sampleKits.get_version_dir fsMixed .Headers =
      sampleKits.get_version_dir fsMixed .Headers :=
  get_version_dir_idempotent fsMixed fsMixed sampleKits .Headers rfl

/-- On a successfully opened key, `new` reduces to the value read. -/
theorem new_ok_case (reg : Registry) (key : RegKeyModel)
    (hk : reg.openSubkey installedRootsKeyPath = .ok key) :
    WindowsKits.new reg =
      match key.getValueString "KitsRoot10" with
      | .error e => .error (.IoError e)
      | .ok dir => .ok ⟨stringToPath dir⟩ := by
  unfold WindowsKits.new
  rw [hk]

/-- C8: `WindowsKits::new` reads the string value `KitsRoot10` under the
fixed local-machine key `SOFTWARE\Microsoft\Windows Kits\Installed Roots`;
every failure to open the key, read the value, or match its type surfaces
as `IoError` wrapping the underlying failure (never `DirectoryNotFound`),
and a resolver value exists exactly when the whole read succeeded, holding
the converted path. -/
theorem new_registry_spec (reg : Registry) :
    (∀ e, WindowsKits.new reg = .error (Error.IoError e) ↔
        (reg.openSubkey installedRootsKeyPath = .error e ∨
          ∃ key, reg.openSubkey installedRootsKeyPath = .ok key ∧
            key.getValueString "KitsRoot10" = .error e)) ∧
    (∀ k, WindowsKits.new reg = .ok k ↔
        ∃ key s, reg.openSubkey installedRootsKeyPath = .ok key ∧
          key.getValueString "KitsRoot10" = .ok s ∧
          k = ⟨stringToPath s⟩) ∧
    ¬ WindowsKits.new reg = .error Error.DirectoryNotFound := by
  cases hk : reg.openSubkey installedRootsKeyPath with
  | error e0 =>
    have hnew : WindowsKits.new reg = .error (.IoError e0) := by
      unfold WindowsKits.new
      rw [hk]
    refine ⟨fun e => ?_, fun k => ?_, ?_⟩
    · rw [hnew]
      simp
    · rw [hnew]
      simp
    · rw [hnew]
      simp
  | ok key0 =>
    cases hv : key0.getValueString "KitsRoot10" with
    | error e0 =>
      have hnew : WindowsKits.new reg = .error (.IoError e0) := by
        rw [new_ok_case reg key0 hk, hv]
      refine ⟨fun e => ?_, fun k => ?_, ?_⟩
      · rw [hnew]
        simp [hv]
      · rw [hnew]
        simp [hv]
      · rw [hnew]
        simp
    | ok s0 =>
      have hnew : WindowsKits.new reg = .ok ⟨stringToPath s0⟩ := by
        rw [new_ok_case reg key0 hk, hv]
      refine ⟨fun e => ?_, fun k => ?_, ?_⟩
      · rw [hnew]
        simp [hv]
      · rw [hnew]
        simp [hv, eq_comm]
      · rw [hnew]
        simp


/-- C9: for a constructed resolver, any sequence of `path`, `get_dir` and
`get_version_dir` calls leaves the stored installation root unchanged, the
`path` accessor is the stored field (total, hence infallible), and every
`path` call in the sequence returns exactly the path stored at
construction. -/
theorem installation_root_immutable (reg : Registry) (fs : FileSystem)
    (k : WindowsKits) (cs : List ApiCall)
    (h : WindowsKits.new reg = .ok k) :
    (runCalls fs k cs).2 = k ∧ k.pathMethod = k.path ∧
      ∀ p, ApiResult.pathR p ∈ (runCalls fs k cs).1 → p = k.path := by
  have hcall : ∀ c, (k.call fs c).2 = k := by
    intro c
    cases c <;> rfl
  have hstate : ∀ cs' : List ApiCall, (runCalls fs k cs').2 = k := by
    intro cs'
    induction cs' with
    | nil => rfl
    | cons c cs' ih =>
      show (runCalls fs (k.call fs c).2 cs').2 = k
      rw [hcall c]
      exact ih
  refine ⟨hstate cs, rfl, ?_⟩
  induction cs with
  | nil =>
    intro p hp
    cases hp
  | cons c cs ih =>
    intro p hp
    have hp' : ApiResult.pathR p = (k.call fs c).1 ∨
        ApiResult.pathR p ∈ (runCalls fs (k.call fs c).2 cs).1 :=
      List.mem_cons.mp hp
    rw [hcall c] at hp'
    rcases hp' with h1 | h2
    · cases c with
      | queryPath =>
        exact (ApiResult.pathR.inj h1)
      | queryDir t => exact absurd h1 (by simp [WindowsKits.call])
      | queryVersionDir t => exact absurd h1 (by simp [WindowsKits.call])
    · exact ih p h2


/-- C9 witness. -/
theorem installation_root_immutable_witness :
    (runCalls fsMixed kitsSample [ApiCall.queryPath]).2 = kitsSample ∧
      kitsSample.pathMethod = kitsSample.path ∧
      ∀ p, ApiResult.pathR p ∈
          (runCalls fsMixed kitsSample [ApiCall.queryPath]).1 →
        p = kitsSample.path :=
  installation_root_immutable regSample fsMixed kitsSample
    [ApiCall.queryPath] (by decide)

/-- C10 witness. -/
theorem get_version_dir_immediate_child_witness :
    ∃ s : String,
      ([Comp.text "r"] ++ [Comp.text "bin"] ++ [Comp.text "10.2"]) =
        (⟨[Comp.text "r"]⟩ : WindowsKits).get_dir .Binaries ++
          [Comp.text s] ∧ startsWithTen s = true :=
  get_version_dir_immediate_child
    (fun p => if p = (⟨[Comp.text "r"]⟩ : WindowsKits).get_dir .Binaries
      then .ok [Except.ok ⟨Comp.text "10.2"⟩] else .error (.os 2))
    ⟨[Comp.text "r"]⟩ .Binaries
    ([Comp.text "r"] ++ [Comp.text "bin"] ++ [Comp.text "10.2"])
    (by decide)

end WinKits
